import Mathlib

/-!
Verification of the tpix-cli package acquisition and self-update engine.

Each section shallowly embeds one Go source unit of the repository:
strings are modelled as `String` or `List Char`, machine integers as
`Nat`/`Int`, fallible operations as `Option`/`Except`, and the effectful
download / resolution routines as pure functions over an explicit
environment describing the outcomes of their external calls, returning
the trace of observable events.  All definitions are executable.
-/

set_option maxRecDepth 10000

/-! ## Generic list helpers -/

/-- Length of `dropWhile` is at most the original length. -/
theorem lengthDropWhileLe (p : Char → Bool) (l : List Char) :
    (l.dropWhile p).length ≤ l.length := by
  induction l with
  | nil => simp [List.dropWhile]
  | cons c cs ih =>
    simp only [List.dropWhile]
    cases p c <;> simp <;> omega

/-- Splitting a list at a distinguished separator element is unambiguous
when neither left part contains the separator. -/
theorem splitAtSepUnique {α : Type} [DecidableEq α] (sep : α) :
    ∀ (x1 x2 y1 y2 : List α), sep ∉ x1 → sep ∉ x2 →
      x1 ++ sep :: y1 = x2 ++ sep :: y2 → x1 = x2 ∧ y1 = y2 := by
  intro x1
  induction x1 with
  | nil =>
    intro x2 y1 y2 _ h2 heq
    cases x2 with
    | nil => simpa using heq
    | cons c x2t =>
      simp only [List.nil_append, List.cons_append, List.cons.injEq] at heq
      exact absurd (heq.1 ▸ List.mem_cons_self c x2t) (heq.1 ▸ h2)
  | cons c x1t ih =>
    intro x2 y1 y2 h1 h2 heq
    cases x2 with
    | nil =>
      simp only [List.cons_append, List.nil_append, List.cons.injEq] at heq
      exact absurd (heq.1 ▸ List.mem_cons_self c x1t) (heq.1 ▸ h1)
    | cons c2 x2t =>
      simp only [List.cons_append, List.cons.injEq] at heq
      have h1t : sep ∉ x1t := fun hm => h1 (List.mem_cons_of_mem c hm)
      have h2t : sep ∉ x2t := fun hm => h2 (List.mem_cons_of_mem c2 hm)
      have := ih x2t y1 y2 h1t h2t heq.2
      exact ⟨by rw [heq.1, this.1], this.2⟩

/-! ## Section: deps package (`Dependency`, `Dependency.Key`)

Source: `src/unnamed/part_002` (Go package `deps`). -/

namespace TpixDeps

/-- Go: `type Dependency struct { Namespace, Name, Version string }` —
a parsed Typst package import. -/
structure Dependency where
  Namespace : String
  Name : String
  Version : String
deriving DecidableEq, Repr

/-- Go: `func (d Dependency) Key() string { return "@" + d.Namespace + "/" + d.Name + ":" + d.Version }`. -/
def Dependency.Key (d : Dependency) : String :=
  "@" ++ d.Namespace ++ "/" ++ d.Name ++ ":" ++ d.Version

theorem keyData (d : Dependency) :
    (Dependency.Key d).toList =
      '@' :: (d.Namespace.toList ++ '/' :: (d.Name.toList ++ ':' :: d.Version.toList)) := by
  simp [Dependency.Key, String.toList, String.data_append]

/-! ### Import extraction (`ExtractFromSource`)

Source: `src/unnamed/part_002` lines 26-81.  The file content is a
`List Char` (the inputs of interest are ASCII, so Go's byte indexing and
character indexing coincide).  Lines are split on `\n`; each line is
trimmed, stripped of comments exactly as the Go loop does — a pending block
comment is closed at the first `*/`, ONE inline `/* ... */` is cut out (or
an opening `/*` truncates the line and sets the pending flag), a leading
`//` drops the line and an inner `//` truncates it — and then scanned with
the regular expression `#import\s+"@([^/]+)/([^:]+):([^"]+)"`.  Because
each capture class excludes exactly its following delimiter, the regex has
a unique greedy-free decomposition and is embedded as the direct scanner
`tryMatch`; `FindAllSubmatch`'s successive non-overlapping matches are
`scanImports`.  Deduplication by `Key()` with first occurrence kept is the
`seen` map plus append. -/

/-- Go `bytes.Split(content, []byte{'\n'})`. -/
def splitLines : List Char → List (List Char)
  | [] => [[]]
  | c :: cs =>
    let r := splitLines cs
    if c = '\n' then [] :: r
    else
      match r with
      | x :: xs => (c :: x) :: xs
      | [] => [[c]]

/-- ASCII white space trimmed by Go `bytes.TrimSpace`. -/
def isGoSpace (c : Char) : Bool :=
  c = ' ' || c = '\t' || c = '\n' || c = '\x0b' || c = '\x0c' || c = '\r'

/-- Go `bytes.TrimSpace` on ASCII input. -/
def goTrimSpace (l : List Char) : List Char :=
  ((l.dropWhile isGoSpace).reverse.dropWhile isGoSpace).reverse

/-- Go `bytes.Index`: position of the first occurrence of `sub`. -/
def indexOfSub (l sub : List Char) : Option Nat :=
  if sub.isPrefixOf l then some 0
  else
    match l with
    | [] => none
    | _ :: cs => (indexOfSub cs sub).map (· + 1)

/-- Go regexp `\s`: `[\t\n\f\r ]`. -/
def isRegexSpace (c : Char) : Bool :=
  c = ' ' || c = '\t' || c = '\n' || c = '\x0c' || c = '\r'

/-- Comment handling after the pending-block-comment step: cut one inline
`/* ... */` (or truncate at an unclosed `/*`, setting the pending flag),
then apply the two `//` rules.  Mirrors `src/unnamed/part_002` lines
45-62. -/
def afterBlockOpenCheck (t : List Char) : Bool × List Char :=
  let s :=
    match indexOfSub t ['/', '*'] with
    | none => (false, t)
    | some idx =>
      match indexOfSub (t.drop (idx + 2)) ['*', '/'] with
      | some closeIdx => (false, t.take idx ++ t.drop (idx + 2 + closeIdx + 2))
      | none => (true, t.take idx)
  if (['/', '/'] : List Char).isPrefixOf s.2 then (s.1, [])
  else
    match indexOfSub s.2 ['/', '/'] with
    | none => s
    | some idx => (s.1, s.2.take idx)

/-- One iteration of the line loop of `ExtractFromSource`: given the
pending-block-comment flag, produce the new flag and the text the import
regex runs over (empty when the whole line is swallowed by a comment). -/
def processLine (inBlock : Bool) (line : List Char) : Bool × List Char :=
  let trimmed := goTrimSpace line
  if inBlock then
    match indexOfSub trimmed ['*', '/'] with
    | none => (true, [])
    | some idx => afterBlockOpenCheck (trimmed.drop (idx + 2))
  else afterBlockOpenCheck trimmed

/-- Remove an expected leading literal, or fail. -/
def dropLit : List Char → List Char → Option (List Char)
  | [], l => some l
  | _ :: _, [] => none
  | p :: ps, c :: cs => if p = c then dropLit ps cs else none

/-- Expect one specific character. -/
def expectChar (c : Char) : List Char → Option (List Char)
  | [] => none
  | x :: xs => if x = c then some xs else none

/-- Try to match `import\s+"@([^/]+)/([^:]+):([^"]+)"` directly after a
`#`: the literal word, at least one `\s`, the quoted `@ns/name:ver` whose
three capture groups are the maximal nonempty runs excluding their
delimiter.  Returns the dependency and the rest of the line after the
match. -/
def tryMatch (cs : List Char) : Option (Dependency × List Char) :=
  match dropLit "import".toList cs with
  | none => none
  | some r1 =>
    match r1 with
    | [] => none
    | c :: _ =>
      if isRegexSpace c then
        let r2 := r1.dropWhile isRegexSpace
        match expectChar '"' r2 with
        | none => none
        | some r3 =>
          match expectChar '@' r3 with
          | none => none
          | some r4 =>
            let ns := r4.takeWhile (· ≠ '/')
            match expectChar '/' (r4.dropWhile (· ≠ '/')) with
            | none => none
            | some r5 =>
              if ns = [] then none
              else
                let nm := r5.takeWhile (· ≠ ':')
                match expectChar ':' (r5.dropWhile (· ≠ ':')) with
                | none => none
                | some r6 =>
                  if nm = [] then none
                  else
                    let ver := r6.takeWhile (· ≠ '"')
                    match expectChar '"' (r6.dropWhile (· ≠ '"')) with
                    | none => none
                    | some r7 =>
                      if ver = [] then none
                      else some (⟨String.mk ns, String.mk nm, String.mk ver⟩, r7)
      else none

/-- Go `importRegex.FindAllSubmatch(trimmed, -1)`: successive leftmost
matches, the scan resuming after each match.  The first argument is an
explicit induction counter; a successful match consumes at least the `#`,
so the remaining text is always strictly shorter than the current one and
the counter `scanImports` supplies never reaches zero early. -/
def scanImportsF : Nat → List Char → List Dependency
  | 0, _ => []
  | _ + 1, [] => []
  | f + 1, c :: cs =>
    if c = '#' then
      match tryMatch cs with
      | none => scanImportsF f cs
      | some (dep, rest) => dep :: scanImportsF f rest
    else scanImportsF f cs

/-- All regex matches of one processed line, in order. -/
def scanImports (l : List Char) : List Dependency := scanImportsF l.length l

/-- The `seen`-map step of `ExtractFromSource`: skip an already-seen key,
otherwise record it and append the dependency. -/
def dedupStep (st : List String × List Dependency) (d : Dependency) :
    List String × List Dependency :=
  if d.Key ∈ st.1 then st else (d.Key :: st.1, st.2 ++ [d])

/-- One full line iteration of `ExtractFromSource`: comment processing,
regex scan, deduplicating append. -/
def extractStep (st : Bool × List String × List Dependency) (line : List Char) :
    Bool × List String × List Dependency :=
  let pr := processLine st.1 line
  let st2 := (scanImports pr.2).foldl dedupStep (st.2.1, st.2.2)
  (pr.1, st2.1, st2.2)

/-- Go: `ExtractFromSource` (`src/unnamed/part_002` lines 26-81). -/
def ExtractFromSource (content : List Char) : List Dependency :=
  ((splitLines content).foldl extractStep (false, [], [])).2.2

/-- The processed (comment-stripped) text of each line, threading the
pending-block-comment flag. -/
def processedLines : Bool → List (List Char) → List (List Char)
  | _, [] => []
  | inB, line :: rest =>
    let pr := processLine inB line
    pr.2 :: processedLines pr.1 rest

/-- Every import match the scanner produces over the whole file, in order,
before deduplication. -/
def allMatches (content : List Char) : List Dependency :=
  ((processedLines false (splitLines content)).map scanImports).flatten

/-- Modelled from the claim's words: keep each distinct `Key()` exactly
once, at its first occurrence, given the keys already seen; returns the
final seen set and the kept dependencies. -/
def firstOccurrencesFrom (seen : List String) :
    List Dependency → List String × List Dependency
  | [] => (seen, [])
  | d :: rest =>
    if d.Key ∈ seen then firstOccurrencesFrom seen rest
    else
      let r := firstOccurrencesFrom (d.Key :: seen) rest
      (r.1, d :: r.2)

/-- Modelled from the claim's words: the list with each distinct import
kept exactly once, in order of first occurrence. -/
def firstOccurrences (ms : List Dependency) : List Dependency :=
  (firstOccurrencesFrom [] ms).2

/-- The pending-block-comment flag after processing a list of lines. -/
def linesFinalB : Bool → List (List Char) → Bool
  | b, [] => b
  | b, line :: rest => linesFinalB (processLine b line).1 rest

/-- All matches of a list of lines, given the initial flag. -/
def matchesOf (inB : Bool) (lines : List (List Char)) : List Dependency :=
  ((processedLines inB lines).map scanImports).flatten

theorem foldDedupEq :
    ∀ (ms : List Dependency) (seen : List String) (acc : List Dependency),
      ms.foldl dedupStep (seen, acc) =
        ((firstOccurrencesFrom seen ms).1,
         acc ++ (firstOccurrencesFrom seen ms).2) := by
  intro ms
  induction ms with
  | nil =>
    intro seen acc
    simp [firstOccurrencesFrom]
  | cons d rest ih =>
    intro seen acc
    simp only [List.foldl_cons, firstOccurrencesFrom]
    by_cases hk : d.Key ∈ seen
    · have hstep : dedupStep (seen, acc) d = (seen, acc) := by
        simp [dedupStep, hk]
      rw [hstep, ih, if_pos hk]
    · have hstep : dedupStep (seen, acc) d = (d.Key :: seen, acc ++ [d]) := by
        simp [dedupStep, hk]
      rw [hstep, ih, if_neg hk]
      simp

theorem firstOccFromAppend :
    ∀ (ms1 ms2 : List Dependency) (seen : List String),
      firstOccurrencesFrom seen (ms1 ++ ms2) =
        ((firstOccurrencesFrom (firstOccurrencesFrom seen ms1).1 ms2).1,
         (firstOccurrencesFrom seen ms1).2 ++
           (firstOccurrencesFrom (firstOccurrencesFrom seen ms1).1 ms2).2) := by
  intro ms1
  induction ms1 with
  | nil =>
    intro ms2 seen
    simp [firstOccurrencesFrom]
  | cons d rest ih =>
    intro ms2 seen
    simp only [List.cons_append, firstOccurrencesFrom, List.append_eq]
    by_cases hk : d.Key ∈ seen
    · rw [if_pos hk, if_pos hk]
      exact ih ms2 seen
    · rw [if_neg hk, if_neg hk, ih ms2 (d.Key :: seen)]
      simp

theorem extractFoldEq :
    ∀ (lines : List (List Char)) (inB : Bool) (seen : List String)
      (acc : List Dependency),
      lines.foldl extractStep (inB, seen, acc) =
      (linesFinalB inB lines,
       (firstOccurrencesFrom seen (matchesOf inB lines)).1,
       acc ++ (firstOccurrencesFrom seen (matchesOf inB lines)).2) := by
  intro lines
  induction lines with
  | nil =>
    intro inB seen acc
    simp [linesFinalB, matchesOf, processedLines, firstOccurrencesFrom]
  | cons line rest ih =>
    intro inB seen acc
    have hmat : matchesOf inB (line :: rest) =
        scanImports (processLine inB line).2 ++
          matchesOf (processLine inB line).1 rest := by
      simp [matchesOf, processedLines]
    have hstep : extractStep (inB, seen, acc) line =
        ((processLine inB line).1,
         (firstOccurrencesFrom seen (scanImports (processLine inB line).2)).1,
         acc ++
           (firstOccurrencesFrom seen (scanImports (processLine inB line).2)).2) := by
      show ((processLine inB line).1,
        ((scanImports (processLine inB line).2).foldl dedupStep (seen, acc)).1,
        ((scanImports (processLine inB line).2).foldl dedupStep (seen, acc)).2) = _
      rw [foldDedupEq]
    rw [List.foldl_cons, hstep, ih, hmat, firstOccFromAppend]
    simp only [linesFinalB, List.append_assoc]

theorem extractEqFirstOcc (content : List Char) :
    ExtractFromSource content = firstOccurrences (allMatches content) := by
  unfold ExtractFromSource firstOccurrences allMatches
  rw [extractFoldEq (splitLines content) false [] []]
  simp [matchesOf]

theorem firstOccFromNodupKeys :
    ∀ (ms : List Dependency) (seen : List String),
      ((firstOccurrencesFrom seen ms).2.map Dependency.Key).Nodup ∧
      ∀ k ∈ (firstOccurrencesFrom seen ms).2.map Dependency.Key, k ∉ seen := by
  intro ms
  induction ms with
  | nil =>
    intro seen
    simp [firstOccurrencesFrom]
  | cons d rest ih =>
    intro seen
    simp only [firstOccurrencesFrom]
    by_cases hk : d.Key ∈ seen
    · rw [if_pos hk]
      exact ih seen
    · rw [if_neg hk]
      obtain ⟨hnd, hdis⟩ := ih (d.Key :: seen)
      constructor
      · simp only [List.map_cons, List.nodup_cons]
        exact ⟨fun hmem => hdis d.Key hmem (List.mem_cons_self _ _), hnd⟩
      · intro k hkmem
        simp only [List.map_cons, List.mem_cons] at hkmem
        rcases hkmem with hkm | hkm
        · exact hkm ▸ hk
        · exact fun hks => hdis k hkm (List.mem_cons_of_mem _ hks)

end TpixDeps

/-- C5: for every triple whose namespace contains no `/` and whose name
contains no `:` (the shape every `Dependency` produced by the import
scanner has, since the capture groups are `[^/]+` and `[^:]+`), `Key()`
is injective, and it is stable: repeated calls on the same triple return
the same string. -/
theorem C5_Key_injective_stable :
    (∀ d1 d2 : TpixDeps.Dependency,
        '/' ∉ d1.Namespace.toList → '/' ∉ d2.Namespace.toList →
        ':' ∉ d1.Name.toList → ':' ∉ d2.Name.toList →
        d1.Key = d2.Key → d1 = d2) ∧
    (∀ d : TpixDeps.Dependency, d.Key = d.Key) := by
  constructor
  · intro d1 d2 hn1 hn2 hm1 hm2 hkey
    have hdata := congrArg String.toList hkey
    rw [TpixDeps.keyData, TpixDeps.keyData] at hdata
    simp only [List.cons.injEq, true_and] at hdata
    obtain ⟨hns, hrest⟩ := splitAtSepUnique '/' _ _ _ _ hn1 hn2 hdata
    obtain ⟨hname, hver⟩ := splitAtSepUnique ':' _ _ _ _ hm1 hm2 hrest
    cases d1; cases d2
    simp only [TpixDeps.Dependency.mk.injEq]
    refine ⟨?_, ?_, ?_⟩ <;> apply String.ext <;> assumption
  · intro d; rfl

/-- Closed witness for C5 at a concrete triple. -/
theorem C5_Key_witness :
    TpixDeps.Dependency.mk "preview" "cetz" "0.3.0" =
      TpixDeps.Dependency.mk "preview" "cetz" "0.3.0" :=
  C5_Key_injective_stable.1
    ⟨"preview", "cetz", "0.3.0"⟩ ⟨"preview", "cetz", "0.3.0"⟩
    (by decide) (by decide) (by decide) (by decide) rfl

/-- C10 counterexample: an import that appears only inside block comments
is nevertheless returned.  On a line holding two block comments, the code
removes only the first `/* ... */`; the `#import` inside the second block
comment survives and is extracted, so "imports that appear only inside
block comments are not included" is false on the code. -/
theorem C10_counterexample_second_block_comment :
    TpixDeps.ExtractFromSource
        "/* x */ /* #import \"@a/b:1.0.0\" */".toList =
      [⟨"a", "b", "1.0.0"⟩] ∧
    TpixDeps.ExtractFromSource
        "/* x */ /* #import \"@a/b:1.0.0\" */".toList ≠ [] := by
  refine ⟨by decide, ?_⟩
  intro h
  rw [show TpixDeps.ExtractFromSource
      "/* x */ /* #import \"@a/b:1.0.0\" */".toList =
      [⟨"a", "b", "1.0.0"⟩] from by decide] at h
  cases h

/-- C10 amended: the returned list never contains two elements with the
same `Key()` — it is exactly the first-occurrence deduplication of all
regex matches on the comment-processed lines, so each distinct import is
reported once, in order of first occurrence.  Comment exclusion holds for
line comments, for whole-line and multi-line block comments, and for the
first inline block comment of each line — but not for a second block
comment on the same line (see the counterexample). -/
theorem C10_extract_dedup_and_comments :
    (∀ content : List Char,
      TpixDeps.ExtractFromSource content =
        TpixDeps.firstOccurrences (TpixDeps.allMatches content)) ∧
    (∀ content : List Char,
      ((TpixDeps.ExtractFromSource content).map TpixDeps.Dependency.Key).Nodup) ∧
    (TpixDeps.ExtractFromSource
        "// #import \"@preview/cetz:0.3.0\": canvas".toList = [] ∧
     TpixDeps.ExtractFromSource
        "/* #import \"@preview/cetz:0.3.0\": canvas */".toList = [] ∧
     TpixDeps.ExtractFromSource
        "/*\n#import \"@preview/cetz:0.3.0\": canvas\n*/\n#import \"@preview/tablex:0.0.6\": tablex".toList =
       [⟨"preview", "tablex", "0.0.6"⟩] ∧
     TpixDeps.ExtractFromSource
        "#import \"@preview/cetz:0.3.0\": canvas // some comment".toList =
       [⟨"preview", "cetz", "0.3.0"⟩] ∧
     TpixDeps.ExtractFromSource
        "#import \"@preview/cetz:0.3.0\": canvas\n#import \"@preview/cetz:0.3.0\": draw".toList =
       [⟨"preview", "cetz", "0.3.0"⟩]) := by
  refine ⟨TpixDeps.extractEqFirstOcc, ?_, by decide, by decide, by decide,
    by decide, by decide⟩
  intro content
  rw [TpixDeps.extractEqFirstOcc]
  exact (TpixDeps.firstOccFromNodupKeys (TpixDeps.allMatches content) []).1

/-! ## Section: main package, `parsePkgSpec`

Source: `src/unnamed/part_004` lines 19-35.  Go `strings.TrimPrefix(s, "@")`
removes one leading `@`; `strings.SplitN(s, "/", 2)` yields `[s]` when `/`
is absent and `[before, after]` split at the first `/` otherwise; likewise
for `":"`.  Strings are modelled as `List Char`. -/

namespace TpixMain

/-- Go: `strings.TrimPrefix(pkgSpec, "@")`. -/
def trimLeadAt (s : List Char) : List Char :=
  match s with
  | '@' :: r => r
  | r => r

/-- Split at the first occurrence of a one-character separator: `none` when
the separator is absent.  `strings.SplitN(s, sep, 2)` is `[s]` in the `none`
case and `[a, b]` when this returns `some (a, b)`. -/
def splitFirst (sep : Char) : List Char → Option (List Char × List Char)
  | [] => none
  | c :: cs =>
    if c = sep then some ([], cs)
    else (splitFirst sep cs).map (fun p => (c :: p.1, p.2))

/-- Go: `parsePkgSpec` from `src/unnamed/part_004`.  Returns
`(namespace, name, version)`; all three are empty when the spec has no
`/` after stripping the optional `@`, and version is empty when the part
after the first `/` has no `:`. -/
def parsePkgSpec (pkgSpec : List Char) : List Char × List Char × List Char :=
  let s := trimLeadAt pkgSpec
  match splitFirst '/' s with
  | none => ([], [], [])
  | some (nspace, rest) =>
    match splitFirst ':' rest with
    | none => (nspace, rest, [])
    | some (name, ver) => (nspace, name, ver)

/-! ### Dependency resolution (`fetchWithDeps`)

Source: `src/unnamed/part_004` lines 107-144.  The collaborators are fixed
by a `FetchEnv`: which keys are cached on disk (`isPackageCached`), which
downloads fail (`api.DownloadPackage`), and the server's dependency table
(`api.FetchDependencies`; a key absent from the table is a failed/empty
query, treated as a leaf).  The function returns the final visited set, the
trace of observable actions in order — marking a key visited, the cache
hit, the download, the dependency query — and the propagated error, if
any.  The `Nat` argument is an explicit induction counter making the
recursion structural; `C4_fetchWithDeps_cycle_safe` proves that
`tableKeys env |>.length + 2` always suffices, which is the termination
argument of the Go original (each recursive call first inserts an unseen
key into `visited`, and only keys present in the dependency table ever
recurse further). -/

/-- The `(namespace, name, version)` triple `fetchWithDeps` receives. -/
structure PkgRef where
  nspace : String
  name : String
  version : String
deriving DecidableEq, Repr

/-- Go: `key := fmt.Sprintf("@%s/%s:%s", namespace, name, version)`
(`src/unnamed/part_004` line 110). -/
def refKey (r : PkgRef) : String :=
  "@" ++ r.nspace ++ "/" ++ r.name ++ ":" ++ r.version

/-- Observable actions of one resolution call. -/
inductive FetchEv where
  | mark (key : String)
  | cacheHit (key : String)
  | download (key : String)
  | depsQuery (key : String)
deriving DecidableEq, Repr

/-- Behaviour of the collaborators during one resolution. -/
structure FetchEnv where
  cache : List String
  downloadFails : List String
  depTable : List (String × List PkgRef)
deriving Repr

/-- Result of a resolution call: final visited set, event trace, error. -/
structure FetchOut where
  visited : List String
  trace : List FetchEv
  err : Option String
deriving DecidableEq, Repr

/-- Go: `api.FetchDependencies`, as a lookup in the environment's table;
`none` is a failed query (swallowed by the caller as "leaf package"). -/
def lookupDeps (table : List (String × List PkgRef)) (k : String) :
    Option (List PkgRef) :=
  (table.find? (fun p => p.1 = k)).map (·.2)

/-- The `for _, dep := range depInfos` loop: resolve each dependency in
order, threading the visited set, aborting on the first error. -/
def fetchFold (step : PkgRef → List String → Option FetchOut) :
    List PkgRef → List String → Option FetchOut
  | [], visited => some ⟨visited, [], none⟩
  | d :: rest, visited =>
    match step d visited with
    | none => none
    | some out =>
      match out.err with
      | some _ => some out
      | none =>
        match fetchFold step rest out.visited with
        | none => none
        | some out2 => some ⟨out2.visited, out.trace ++ out2.trace, out2.err⟩

/-- The tail of `fetchWithDeps` after the cache-or-download step: return
early under `noDeps`, otherwise query the dependency table — a failed query
is not an error — and recurse into each dependency. -/
def depStep (env : FetchEnv) (fetchRec : PkgRef → List String → Option FetchOut)
    (key : String) (visited1 : List String) (noDeps : Bool)
    (headEvs : List FetchEv) : Option FetchOut :=
  if noDeps then some ⟨visited1, headEvs, none⟩
  else
    match lookupDeps env.depTable key with
    | none => some ⟨visited1, headEvs ++ [FetchEv.depsQuery key], none⟩
    | some deps =>
      match fetchFold fetchRec deps visited1 with
      | none => none
      | some out =>
        some ⟨out.visited, headEvs ++ FetchEv.depsQuery key :: out.trace, out.err⟩

/-- Go: `fetchWithDeps` (`src/unnamed/part_004` lines 109-144): an
already-visited key is an immediate no-op; otherwise the key is marked
visited first, then the package is either found in the cache or
downloaded (a failed download aborts with an error), and unless `noDeps`
the direct dependencies are queried and resolved recursively, always with
`noDeps = false`. -/
def fetchWithDeps (env : FetchEnv) :
    Nat → PkgRef → List String → Bool → Option FetchOut
  | 0, _, _, _ => none
  | fuel + 1, ref, visited, noDeps =>
    let key := refKey ref
    if key ∈ visited then some ⟨visited, [], none⟩
    else
      let visited1 := key :: visited
      if key ∈ env.cache then
        depStep env (fun d v => fetchWithDeps env fuel d v false) key visited1 noDeps
          [FetchEv.mark key, FetchEv.cacheHit key]
      else if key ∈ env.downloadFails then
        some ⟨visited1, [FetchEv.mark key, FetchEv.download key],
          some ("failed to download " ++ key)⟩
      else
        depStep env (fun d v => fetchWithDeps env fuel d v false) key visited1 noDeps
          [FetchEv.mark key, FetchEv.download key]

/-- The key an event concerns. -/
def evKey : FetchEv → String
  | .mark k => k
  | .cacheHit k => k
  | .download k => k
  | .depsQuery k => k

/-- Whether an event is the marking of a key as visited. -/
def evIsMark : FetchEv → Bool
  | .mark _ => true
  | _ => false

/-- Keys marked visited, in trace order. -/
def markKeys (t : List FetchEv) : List String :=
  t.filterMap fun ev =>
    match ev with
    | FetchEv.mark k => some k
    | _ => none

/-- Keys processed (cache check hit or download), in trace order. -/
def workKeys (t : List FetchEv) : List String :=
  t.filterMap fun ev =>
    match ev with
    | FetchEv.cacheHit k => some k
    | FetchEv.download k => some k
    | _ => none

/-- Every non-mark event's key was marked visited strictly earlier in the
trace. -/
def markedBefore (t : List FetchEv) : Prop :=
  ∀ l ev r, t = l ++ ev :: r → evIsMark ev = false → evKey ev ∈ markKeys l

/-- The keys of the dependency table. -/
def tableKeys (env : FetchEnv) : List String := env.depTable.map Prod.fst

/-- How many table keys are not yet visited — the quantity each recursion
step strictly decreases. -/
def unvisitedCount (env : FetchEnv) (visited : List String) : Nat :=
  ((tableKeys env).filter (fun k => decide (k ∉ visited))).length

theorem markKeysAppend (t1 t2 : List FetchEv) :
    markKeys (t1 ++ t2) = markKeys t1 ++ markKeys t2 := by
  simp [markKeys, List.filterMap_append]

theorem workKeysAppend (t1 t2 : List FetchEv) :
    workKeys (t1 ++ t2) = workKeys t1 ++ workKeys t2 := by
  simp [workKeys, List.filterMap_append]

theorem markedBeforeNil : markedBefore [] := by
  intro l ev r heq
  exact absurd heq (by simp)

theorem markedBeforeAppend {t1 t2 : List FetchEv}
    (h1 : markedBefore t1) (h2 : markedBefore t2) : markedBefore (t1 ++ t2) := by
  intro l ev r heq hnm
  rcases List.append_eq_append_iff.mp heq with ⟨a2, hl, ht2⟩ | ⟨c2, ht1, hr⟩
  · have hmem := h2 a2 ev r ht2 hnm
    rw [hl, markKeysAppend]
    exact List.mem_append_right _ hmem
  · cases c2 with
    | nil =>
      simp only [List.nil_append] at hr
      have hmem := h2 [] ev r hr.symm hnm
      simp [markKeys] at hmem
    | cons x c3 =>
      simp only [List.cons_append, List.cons.injEq] at hr
      obtain ⟨hx, -⟩ := hr
      subst hx
      exact h1 l ev c3 ht1 hnm

theorem markedBeforeBlock (k : String) (ws t : List FetchEv)
    (hws : ∀ w ∈ ws, evKey w = k) (ht : markedBefore t) :
    markedBefore (FetchEv.mark k :: (ws ++ t)) := by
  intro l ev r heq hnm
  cases l with
  | nil =>
    simp only [List.nil_append, List.cons.injEq] at heq
    rw [← heq.1] at hnm
    simp [evIsMark] at hnm
  | cons x l2 =>
    simp only [List.cons_append, List.cons.injEq] at heq
    obtain ⟨hx, heq2⟩ := heq
    subst hx
    have hgoal : evKey ev ∈ markKeys (FetchEv.mark k :: l2) ↔
        evKey ev = k ∨ evKey ev ∈ markKeys l2 := by
      simp [markKeys]
    rw [hgoal]
    rcases List.append_eq_append_iff.mp heq2 with ⟨a2, hl2, ht2⟩ | ⟨c2, hws2, hr⟩
    · have hmem := ht a2 ev r ht2 hnm
      rw [hl2, markKeysAppend]
      exact Or.inr (List.mem_append_right _ hmem)
    · cases c2 with
      | nil =>
        simp only [List.nil_append] at hr
        have hmem := ht [] ev r hr.symm hnm
        simp [markKeys] at hmem
      | cons x2 c3 =>
        simp only [List.cons_append, List.cons.injEq] at hr
        obtain ⟨hx2, -⟩ := hr
        subst hx2
        exact Or.inl (hws ev (by rw [hws2]; simp))

/-- The resolution invariant: the final visited set extends the initial one
by exactly the freshly marked keys; a key is marked at most once and only
if it was new; every processed key was marked; and every action on a key is
preceded in the trace by its marking. -/
def FetchInv (visitedIn : List String) (out : FetchOut) : Prop :=
  out.visited = (markKeys out.trace).reverse ++ visitedIn ∧
  (markKeys out.trace).Nodup ∧
  (∀ k ∈ markKeys out.trace, k ∉ visitedIn) ∧
  workKeys out.trace = markKeys out.trace ∧
  markedBefore out.trace

theorem fetchInvTrivial (visited : List String) :
    FetchInv visited ⟨visited, [], none⟩ := by
  refine ⟨by simp [markKeys], by simp [markKeys], by simp [markKeys], rfl,
    markedBeforeNil⟩

theorem blockInv (key : String) (visited : List String) (w : FetchEv)
    (err : Option String)
    (hw : w = FetchEv.cacheHit key ∨ w = FetchEv.download key)
    (hkey : key ∉ visited) :
    FetchInv visited ⟨key :: visited, [FetchEv.mark key, w], err⟩ := by
  have hmk : markKeys [FetchEv.mark key, w] = [key] := by
    rcases hw with h | h <;> subst h <;> simp [markKeys]
  have hwk : workKeys [FetchEv.mark key, w] = [key] := by
    rcases hw with h | h <;> subst h <;> simp [workKeys]
  refine ⟨by simp [hmk], by simp [hmk], ?_, by rw [hwk, hmk], ?_⟩
  · intro k hk
    rw [hmk] at hk
    simp only [List.mem_singleton] at hk
    exact hk ▸ hkey
  · have := markedBeforeBlock key [w] []
      (by intro x hx; simp only [List.mem_singleton] at hx;
          rcases hw with h | h <;> subst h <;> subst hx <;> rfl)
      markedBeforeNil
    simpa using this

theorem foldInvariant (step : PkgRef → List String → Option FetchOut)
    (hstep : ∀ d v o, step d v = some o → FetchInv v o) :
    ∀ (deps : List PkgRef) (visited : List String) (out : FetchOut),
      fetchFold step deps visited = some out → FetchInv visited out := by
  intro deps
  induction deps with
  | nil =>
    intro visited out h
    simp only [fetchFold, Option.some.injEq] at h
    exact h ▸ fetchInvTrivial visited
  | cons d rest ih =>
    intro visited out h
    simp only [fetchFold] at h
    split at h
    · exact absurd h (by simp)
    · rename_i o1 hs
      obtain ⟨hv1, hnd1, hdis1, hwk1, hmb1⟩ := hstep d visited o1 hs
      split at h
      · simp only [Option.some.injEq] at h
        exact h ▸ ⟨hv1, hnd1, hdis1, hwk1, hmb1⟩
      · split at h
        · exact absurd h (by simp)
        · rename_i o2 hr
          simp only [Option.some.injEq] at h
          obtain ⟨hv2, hnd2, hdis2, hwk2, hmb2⟩ := ih o1.visited o2 hr
          subst h
          have hm1sub : ∀ k ∈ markKeys o1.trace, k ∈ o1.visited := by
            intro k hk
            rw [hv1]
            exact List.mem_append_left _ (List.mem_reverse.mpr hk)
          refine ⟨?_, ?_, ?_, ?_, ?_⟩
          · show o2.visited = (markKeys (o1.trace ++ o2.trace)).reverse ++ visited
            rw [markKeysAppend, List.reverse_append, hv2, hv1, List.append_assoc]
          · show (markKeys (o1.trace ++ o2.trace)).Nodup
            rw [markKeysAppend, List.nodup_append]
            refine ⟨hnd1, hnd2, ?_⟩
            intro k hk1 hk2
            exact hdis2 k hk2 (hm1sub k hk1)
          · show ∀ k ∈ markKeys (o1.trace ++ o2.trace), k ∉ visited
            intro k hk
            rw [markKeysAppend, List.mem_append] at hk
            rcases hk with hk | hk
            · exact hdis1 k hk
            · intro hkv
              apply hdis2 k hk
              rw [hv1]
              exact List.mem_append_right _ hkv
          · show workKeys (o1.trace ++ o2.trace) = markKeys (o1.trace ++ o2.trace)
            rw [markKeysAppend, workKeysAppend, hwk1, hwk2]
          · exact markedBeforeAppend hmb1 hmb2

theorem depStepInvariant (env : FetchEnv)
    (step : PkgRef → List String → Option FetchOut)
    (hstep : ∀ d v o, step d v = some o → FetchInv v o)
    (key : String) (visited : List String) (noDeps : Bool)
    (w : FetchEv) (out : FetchOut)
    (hw : w = FetchEv.cacheHit key ∨ w = FetchEv.download key)
    (hkey : key ∉ visited)
    (h : depStep env step key (key :: visited) noDeps [FetchEv.mark key, w] =
      some out) :
    FetchInv visited out := by
  have hmk : markKeys [FetchEv.mark key, w] = [key] := by
    rcases hw with hww | hww <;> subst hww <;> simp [markKeys]
  have hwk : workKeys [FetchEv.mark key, w] = [key] := by
    rcases hw with hww | hww <;> subst hww <;> simp [workKeys]
  have hwkey : evKey w = key := by
    rcases hw with hww | hww <;> subst hww <;> rfl
  have hmk2 : markKeys [FetchEv.mark key, w, FetchEv.depsQuery key] = [key] := by
    rcases hw with hww | hww <;> subst hww <;> simp [markKeys]
  have hwk2 : workKeys [FetchEv.mark key, w, FetchEv.depsQuery key] = [key] := by
    rcases hw with hww | hww <;> subst hww <;> simp [workKeys]
  have hmb2 : markedBefore [FetchEv.mark key, w, FetchEv.depsQuery key] := by
    have := markedBeforeBlock key [w, FetchEv.depsQuery key] []
      (by intro x hx
          simp only [List.mem_cons, List.not_mem_nil, or_false] at hx
          rcases hx with hx | hx <;> subst hx
          · exact hwkey
          · rfl)
      markedBeforeNil
    simpa using this
  simp only [depStep] at h
  split at h
  · simp only [Option.some.injEq] at h
    exact h ▸ blockInv key visited w none hw hkey
  · split at h
    · simp only [List.cons_append, List.nil_append, Option.some.injEq] at h
      subst h
      refine ⟨by simp [hmk2], by simp [hmk2], ?_, by rw [hwk2, hmk2], hmb2⟩
      intro k hk
      rw [hmk2] at hk
      simp only [List.mem_singleton] at hk
      exact hk ▸ hkey
    · rename_i deps hlk
      split at h
      · exact absurd h (by simp)
      · rename_i fout hf
        simp only [Option.some.injEq] at h
        subst h
        obtain ⟨hvF, hndF, hdisF, hwkF, hmbF⟩ := foldInvariant step hstep deps
          (key :: visited) fout hf
        have hkeyF : key ∉ markKeys fout.trace := by
          intro hk
          exact hdisF key hk (List.mem_cons_self key visited)
        have hmkT : markKeys ([FetchEv.mark key, w] ++
            FetchEv.depsQuery key :: fout.trace) = key :: markKeys fout.trace := by
          have : FetchEv.depsQuery key :: fout.trace =
              [FetchEv.depsQuery key] ++ fout.trace := rfl
          rw [this, markKeysAppend, hmk, markKeysAppend]
          simp [markKeys]
        have hwkT : workKeys ([FetchEv.mark key, w] ++
            FetchEv.depsQuery key :: fout.trace) = key :: workKeys fout.trace := by
          have : FetchEv.depsQuery key :: fout.trace =
              [FetchEv.depsQuery key] ++ fout.trace := rfl
          rw [this, workKeysAppend, hwk, workKeysAppend]
          simp [workKeys]
        refine ⟨?_, ?_, ?_, ?_, ?_⟩
        · show fout.visited = _
          rw [hmkT, hvF, List.reverse_cons, List.append_assoc]
          rfl
        · rw [hmkT]
          exact List.nodup_cons.mpr ⟨hkeyF, hndF⟩
        · intro k hk
          rw [hmkT] at hk
          rcases List.mem_cons.mp hk with hk | hk
          · exact hk ▸ hkey
          · intro hkv
            exact hdisF k hk (List.mem_cons_of_mem key hkv)
        · rw [hmkT, hwkT, hwkF]
        · have := markedBeforeBlock key [w, FetchEv.depsQuery key] fout.trace
            (by intro x hx
                simp only [List.mem_cons, List.mem_singleton, List.not_mem_nil,
                  or_false] at hx
                rcases hx with hx | hx <;> subst hx
                · exact hwkey
                · rfl)
            hmbF
          simpa using this

theorem fetchInvariant (env : FetchEnv) :
    ∀ (fuel : Nat) (ref : PkgRef) (visited : List String) (noDeps : Bool)
      (out : FetchOut),
      fetchWithDeps env fuel ref visited noDeps = some out →
      FetchInv visited out := by
  intro fuel
  induction fuel with
  | zero =>
    intro ref visited noDeps out h
    simp [fetchWithDeps] at h
  | succ fuel ih =>
    intro ref visited noDeps out h
    simp only [fetchWithDeps] at h
    by_cases hv : refKey ref ∈ visited
    · rw [if_pos hv] at h
      simp only [Option.some.injEq] at h
      exact h ▸ fetchInvTrivial visited
    · rw [if_neg hv] at h
      by_cases hc : refKey ref ∈ env.cache
      · rw [if_pos hc] at h
        exact depStepInvariant env _ (fun d v o hh => ih d v false o hh)
          (refKey ref) visited noDeps _ out (Or.inl rfl) hv h
      · rw [if_neg hc] at h
        by_cases hf : refKey ref ∈ env.downloadFails
        · rw [if_pos hf] at h
          simp only [Option.some.injEq] at h
          exact h ▸ blockInv (refKey ref) visited _ _ (Or.inr rfl) hv
        · rw [if_neg hf] at h
          exact depStepInvariant env _ (fun d v o hh => ih d v false o hh)
            (refKey ref) visited noDeps _ out (Or.inr rfl) hv h

theorem filterLengthMono {α : Type} (p q : α → Bool)
    (h : ∀ a, q a = true → p a = true) :
    ∀ l : List α, (l.filter q).length ≤ (l.filter p).length := by
  intro l
  induction l with
  | nil => simp
  | cons a t ih =>
    by_cases hq : q a = true
    · have hp := h a hq
      simp only [List.filter_cons, hq, hp, eq_self_iff_true, if_true,
        List.length_cons]
      omega
    · have hqf : q a = false := by simpa using hq
      by_cases hp : p a = true
      · simp only [List.filter_cons, hqf, hp, eq_self_iff_true, if_true,
          Bool.false_eq_true, if_false, List.length_cons]
        omega
      · have hpf : p a = false := by simpa using hp
        simp only [List.filter_cons, hqf, hpf, Bool.false_eq_true, if_false]
        exact ih

theorem unvisitedMono (env : FetchEnv) {v1 v2 : List String} (hsub : v1 ⊆ v2) :
    unvisitedCount env v2 ≤ unvisitedCount env v1 := by
  apply filterLengthMono
  intro a ha
  simp only [decide_eq_true_eq] at ha ⊢
  exact fun hm => ha (hsub hm)

theorem filterCountDecr {α : Type} [DecidableEq α] (key : α) (v : List α) :
    ∀ l : List α, key ∈ l → key ∉ v →
      (l.filter (fun k => decide (k ∉ key :: v))).length <
        (l.filter (fun k => decide (k ∉ v))).length := by
  intro l
  induction l with
  | nil => intro h; cases h
  | cons a t ih =>
    intro hmem hv
    simp only [List.filter_cons]
    by_cases hak : a = key
    · subst hak
      have h1 : (decide (a ∉ a :: v)) = false := by simp
      have h2 : (decide (a ∉ v)) = true := by simpa using hv
      have hmono := filterLengthMono (fun k => decide (k ∉ v))
        (fun k => decide (k ∉ a :: v))
        (by intro b hb
            simp only [decide_eq_true_eq, List.mem_cons] at hb ⊢
            tauto) t
      simp only [h1, h2, Bool.false_eq_true, if_false, eq_self_iff_true,
        if_true, List.length_cons]
      omega
    · have hkt : key ∈ t := by
        rcases List.mem_cons.mp hmem with hh | hh
        · exact absurd hh.symm hak
        · exact hh
      have hagree : (decide (a ∉ key :: v)) = (decide (a ∉ v)) := by
        by_cases hav : a ∈ v <;> simp [hav, hak, List.mem_cons]
      rw [hagree]
      have hrec := ih hkt hv
      cases hd : decide (a ∉ v)
      · simp only [hd, Bool.false_eq_true, if_false]
        exact hrec
      · simp only [hd, eq_self_iff_true, if_true, List.length_cons]
        omega

theorem unvisitedDecr (env : FetchEnv) {key : String} {v : List String}
    (hk : key ∈ tableKeys env) (hv : key ∉ v) :
    unvisitedCount env (key :: v) < unvisitedCount env v :=
  filterCountDecr key v (tableKeys env) hk hv

theorem lookupMemKeys {env : FetchEnv} {key : String} {deps : List PkgRef}
    (h : lookupDeps env.depTable key = some deps) : key ∈ tableKeys env := by
  unfold lookupDeps at h
  cases hf : env.depTable.find? (fun p => p.1 = key) with
  | none => rw [hf] at h; cases h
  | some p =>
    have hmem := List.mem_of_find?_eq_some hf
    have hp := List.find?_some hf
    simp only [decide_eq_true_eq] at hp
    unfold tableKeys
    exact hp ▸ List.mem_map_of_mem Prod.fst hmem

theorem fetchVisitedSubset (env : FetchEnv) (fuel : Nat) (d : PkgRef)
    (v : List String) (o : FetchOut)
    (h : fetchWithDeps env fuel d v false = some o) : v ⊆ o.visited := by
  obtain ⟨hv, -, -, -, -⟩ := fetchInvariant env fuel d v false o h
  rw [hv]
  exact List.subset_append_right _ _

theorem foldSuff (env : FetchEnv) (fuel : Nat)
    (step : PkgRef → List String → Option FetchOut)
    (hS : ∀ d v, unvisitedCount env v + 2 ≤ fuel → step d v ≠ none)
    (hI : ∀ d v o, step d v = some o → v ⊆ o.visited) :
    ∀ (deps : List PkgRef) (visited : List String),
      unvisitedCount env visited + 2 ≤ fuel →
      fetchFold step deps visited ≠ none := by
  intro deps
  induction deps with
  | nil =>
    intro visited hb
    simp [fetchFold]
  | cons d rest ih =>
    intro visited hb
    simp only [fetchFold]
    cases hs : step d visited with
    | none => exact absurd hs (hS d visited hb)
    | some o =>
      cases herr : o.err with
      | some e => simp [herr]
      | none =>
        cases hr : fetchFold step rest o.visited with
        | none =>
          have hb2 : unvisitedCount env o.visited + 2 ≤ fuel := by
            have := unvisitedMono env (hI d visited o hs)
            omega
          exact absurd hr (ih o.visited hb2)
        | some o2 => simp [herr, hr]

theorem fetchSuff (env : FetchEnv) :
    ∀ (fuel : Nat) (visited : List String),
      unvisitedCount env visited + 2 ≤ fuel →
      ∀ (ref : PkgRef) (noDeps : Bool),
      fetchWithDeps env fuel ref visited noDeps ≠ none := by
  intro fuel
  induction fuel with
  | zero =>
    intro visited hb ref noDeps
    omega
  | succ fuel ih =>
    intro visited hb ref noDeps
    simp only [fetchWithDeps]
    by_cases hv : refKey ref ∈ visited
    · simp [hv]
    · rw [if_neg hv]
      have hdep : ∀ (w : FetchEv),
          depStep env (fun d v => fetchWithDeps env fuel d v false) (refKey ref)
            (refKey ref :: visited) noDeps [FetchEv.mark (refKey ref), w] ≠
            none := by
        intro w
        simp only [depStep]
        split
        · simp
        · cases hlk : lookupDeps env.depTable (refKey ref) with
          | none => simp [hlk]
          | some deps =>
            have hb2 : unvisitedCount env (refKey ref :: visited) + 2 ≤ fuel := by
              have hdecr := unvisitedDecr env (lookupMemKeys hlk) hv
              omega
            cases hf : fetchFold (fun d v => fetchWithDeps env fuel d v false)
                deps (refKey ref :: visited) with
            | none =>
              exact absurd hf (foldSuff env fuel _ (fun d v hbb => ih v hbb d false)
                (fun d v o ho => fetchVisitedSubset env fuel d v o ho) deps _ hb2)
            | some fout => simp [hlk, hf]
      by_cases hc : refKey ref ∈ env.cache
      · rw [if_pos hc]
        exact hdep _
      · rw [if_neg hc]
        by_cases hfail : refKey ref ∈ env.downloadFails
        · rw [if_pos hfail]
          simp
        · rw [if_neg hfail]
          exact hdep _

theorem splitFirstEqNone (sep : Char) (s : List Char) (h : sep ∉ s) :
    splitFirst sep s = none := by
  induction s with
  | nil => rfl
  | cons c cs ih =>
    have hc : ¬ c = sep := fun hcs => h (hcs ▸ List.mem_cons_self c cs)
    have hcs : sep ∉ cs := fun hm => h (List.mem_cons_of_mem c hm)
    simp [splitFirst, hc, ih hcs]

theorem splitFirstAppend (sep : Char) (a b : List Char) (ha : sep ∉ a) :
    splitFirst sep (a ++ sep :: b) = some (a, b) := by
  induction a with
  | nil => simp [splitFirst]
  | cons c t ih =>
    have hc : ¬ c = sep := fun hcs => ha (hcs ▸ List.mem_cons_self c t)
    have ht : sep ∉ t := fun hm => ha (List.mem_cons_of_mem c hm)
    simp [splitFirst, hc, ih ht]

end TpixMain

/-- C9: `parsePkgSpec` returns three empty strings whenever the input
(after stripping an optional leading `@`) has no `/`, and when the stripped
input is `a ++ "/" ++ b` with no `/` in `a` and no `:` anywhere, it returns
namespace `a`, name `b`, and an empty version. -/
theorem C9_parsePkgSpec_degenerate :
    (∀ s : List Char, '/' ∉ TpixMain.trimLeadAt s →
      TpixMain.parsePkgSpec s = ([], [], [])) ∧
    (∀ s a b : List Char, TpixMain.trimLeadAt s = a ++ '/' :: b → '/' ∉ a →
      ':' ∉ TpixMain.trimLeadAt s →
      TpixMain.parsePkgSpec s = (a, b, [])) := by
  constructor
  · intro s hs
    simp [TpixMain.parsePkgSpec, TpixMain.splitFirstEqNone '/' _ hs]
  · intro s a b hsplit ha hcolon
    have hb : ':' ∉ b := by
      intro hmemb
      exact hcolon (hsplit ▸ List.mem_append_right a (List.mem_cons_of_mem '/' hmemb))
    simp [TpixMain.parsePkgSpec, hsplit, TpixMain.splitFirstAppend '/' a b ha,
      TpixMain.splitFirstEqNone ':' b hb]

/-- Closed witness for C9 at concrete inputs with and without a slash. -/
theorem C9_parsePkgSpec_witness :
    TpixMain.parsePkgSpec ['@', 'a', 'b', 'c'] = ([], [], []) ∧
    TpixMain.parsePkgSpec ['@', 'n', 's', '/', 'p', 'k', 'g'] =
      (['n', 's'], ['p', 'k', 'g'], []) :=
  ⟨C9_parsePkgSpec_degenerate.1 ['@', 'a', 'b', 'c'] (by decide),
   C9_parsePkgSpec_degenerate.2 ['@', 'n', 's', '/', 'p', 'k', 'g']
     ['n', 's'] ['p', 'k', 'g'] (by decide) (by decide) (by decide)⟩

/-- C4: resolution always terminates — a counter of `|depTable| + 2` nested
levels is never exhausted, on any dependency graph including cyclic and
self-referential ones; in every run each unique package key is processed
(cache-checked or downloaded) at most once — the processed keys are
pairwise distinct; every download, cache check, or dependency query for a
key is preceded in the trace by that key's insertion into the visited set;
and on the concrete cycle a→b, b→a the call terminates after visiting each
of the two refs exactly once. -/
theorem C4_fetchWithDeps_cycle_safe :
    (∀ (env : TpixMain.FetchEnv) (ref : TpixMain.PkgRef) (visited : List String)
        (noDeps : Bool),
      TpixMain.fetchWithDeps env ((TpixMain.tableKeys env).length + 2) ref
        visited noDeps ≠ none) ∧
    (∀ (env : TpixMain.FetchEnv) (fuel : Nat) (ref : TpixMain.PkgRef)
        (visited : List String) (noDeps : Bool) (out : TpixMain.FetchOut),
      TpixMain.fetchWithDeps env fuel ref visited noDeps = some out →
      (TpixMain.workKeys out.trace).Nodup ∧ TpixMain.markedBefore out.trace) ∧
    TpixMain.fetchWithDeps
        ⟨[], [], [("@p/a:1", [⟨"p", "b", "1"⟩]), ("@p/b:1", [⟨"p", "a", "1"⟩])]⟩
        4 ⟨"p", "a", "1"⟩ [] false =
      some ⟨["@p/b:1", "@p/a:1"],
        [.mark "@p/a:1", .download "@p/a:1", .depsQuery "@p/a:1",
         .mark "@p/b:1", .download "@p/b:1", .depsQuery "@p/b:1"], none⟩ := by
  refine ⟨?_, ?_, by decide⟩
  · intro env ref visited noDeps
    apply TpixMain.fetchSuff
    have hle : TpixMain.unvisitedCount env visited ≤
        (TpixMain.tableKeys env).length := List.length_filter_le _ _
    omega
  · intro env fuel ref visited noDeps out h
    obtain ⟨-, hnd, -, hwk, hmb⟩ :=
      TpixMain.fetchInvariant env fuel ref visited noDeps out h
    exact ⟨hwk ▸ hnd, hmb⟩

/-- Closed witness for C4: the two-element cycle's trace processes each key
once and marks each key before working on it. -/
theorem C4_fetchWithDeps_witness :
    (TpixMain.workKeys
      [.mark "@p/a:1", .download "@p/a:1", .depsQuery "@p/a:1",
       .mark "@p/b:1", .download "@p/b:1", .depsQuery "@p/b:1"]).Nodup ∧
    TpixMain.markedBefore
      [.mark "@p/a:1", .download "@p/a:1", .depsQuery "@p/a:1",
       .mark "@p/b:1", .download "@p/b:1", .depsQuery "@p/b:1"] :=
  C4_fetchWithDeps_cycle_safe.2.1
    ⟨[], [], [("@p/a:1", [⟨"p", "b", "1"⟩]), ("@p/b:1", [⟨"p", "a", "1"⟩])]⟩
    4 ⟨"p", "a", "1"⟩ [] false
    ⟨["@p/b:1", "@p/a:1"],
      [.mark "@p/a:1", .download "@p/a:1", .depsQuery "@p/a:1",
       .mark "@p/b:1", .download "@p/b:1", .depsQuery "@p/b:1"], none⟩
    (by decide)

/-! ## Section: version package, asynchronous downloader

Sources: `src/unnamed/part_000` (channel-based `Downloader.Download`,
`DownloadProgress.Write/Progress/Done`) and `src/version/download.go`
(a sibling variant of the same file without the progress channel).

The background task is embedded as a pure function over a `DlWorld` that
fixes the outcome of each external call (HTTP GET, temp dir creation, file
open, the byte chunks the `TeeReader` pushes through `DownloadProgress`,
the result of `io.Copy`, and extraction).  The function returns the list
of observable events in order — progress-channel sends, the channel close
performed by the deferred `Done()`, and completion-callback invocations —
together with the final value of the `Err` field.  The float32 ratio
`float32(finished) / float32(total)` pushed by `Write` is recorded
symbolically as the pair (numerator, denominator) of that division. -/

namespace TpixVersion

/-! ### Semantic version comparison

Sources: `src/version/updater.go` lines 197-224 (variant whose
`compareVersion` returns `semver.Compare(v1, v2) > 0`) and lines 364-391
(sibling variant returning `semver.Compare(v1, v2) <= 0`), plus the
`golang.org/x/mod/semver` helpers they call (`parse`, `parseInt`,
`parsePrerelease`, `parseBuild`, `compareInt`, `comparePrerelease`,
`Compare`, `IsValid`), transcribed over `List Char`.  The `short` field of
the library's `parsed` struct is used only by canonicalisation, never by
`Compare`, and is omitted. -/

namespace Semver

/-- x/mod/semver: identifier characters `A-Za-z0-9-`. -/
def isIdentChar (c : Char) : Bool := c.isAlphanum || c = '-'

/-- x/mod/semver `isNum`: every character is a digit (true on empty). -/
def isNum (v : List Char) : Bool := v.all Char.isDigit

/-- x/mod/semver `isBadNum`: all digits, more than one of them, leading 0. -/
def isBadNum (v : List Char) : Bool :=
  v.all Char.isDigit && decide (v.length > 1) && decide (v.head? = some '0')

/-- x/mod/semver `parseInt`: a nonempty leading run of digits without a
leading zero (unless it is exactly "0"); returns the digits and the rest. -/
def parseIntGo (v : List Char) : Option (List Char × List Char) :=
  match v with
  | [] => none
  | c :: cs =>
    if c.isDigit then
      let digs := cs.takeWhile Char.isDigit
      let rest := cs.dropWhile Char.isDigit
      if c = '0' ∧ digs ≠ [] then none else some (c :: digs, rest)
    else none

/-- Split on every `.`, keeping empty segments. -/
def splitDots : List Char → List (List Char)
  | [] => [[]]
  | c :: cs =>
    let r := splitDots cs
    if c = '.' then [] :: r
    else
      match r with
      | x :: xs => (c :: x) :: xs
      | [] => [[c]]

/-- x/mod/semver `parsePrerelease`: a `-` followed by dot-separated nonempty
identifiers over `[0-9A-Za-z-]`, numeric ones without leading zeros,
terminated by `+` or the end of the string. -/
def parsePrerelease (v : List Char) : Option (List Char × List Char) :=
  match v with
  | '-' :: rest =>
    let body := rest.takeWhile (· ≠ '+')
    let rem := rest.dropWhile (· ≠ '+')
    if body.all (fun c => isIdentChar c || c = '.') &&
        (splitDots body).all (fun seg => decide (seg ≠ []) && !isBadNum seg) then
      some ('-' :: body, rem)
    else none
  | _ => none

/-- x/mod/semver `parseBuild`: a `+` followed by dot-separated nonempty
identifiers over `[0-9A-Za-z-]`, running to the end of the string. -/
def parseBuild (v : List Char) : Option (List Char × List Char) :=
  match v with
  | '+' :: rest =>
    if rest.all (fun c => isIdentChar c || c = '.') &&
        (splitDots rest).all (fun seg => decide (seg ≠ [])) then
      some ('+' :: rest, [])
    else none
  | _ => none

/-- The fields of x/mod/semver's `parsed` that `Compare` consults. -/
structure Parsed where
  major : List Char
  minor : List Char
  patch : List Char
  prerelease : List Char
  build : List Char
deriving DecidableEq, Repr

/-- Tail of x/mod/semver `parse` after major.minor.patch and the optional
prerelease: an optional build part, then the string must be exhausted. -/
def parseAfterPre (major minor patch pre : List Char) (v : List Char) :
    Option Parsed :=
  match v with
  | [] => some ⟨major, minor, patch, pre, []⟩
  | '+' :: _ =>
    match parseBuild v with
    | none => none
    | some (bld, v2) =>
      if v2 = [] then some ⟨major, minor, patch, pre, bld⟩ else none
  | _ => none

/-- x/mod/semver `parse`: `v` prefix, major, optional `.minor`, optional
`.patch`, optional prerelease and build, nothing left over; omitted minor
and patch default to `0`. -/
def parse (v : List Char) : Option Parsed :=
  match v with
  | 'v' :: v1 =>
    match parseIntGo v1 with
    | none => none
    | some (major, v2) =>
      match v2 with
      | [] => some ⟨major, ['0'], ['0'], [], []⟩
      | '.' :: v3 =>
        match parseIntGo v3 with
        | none => none
        | some (minor, v4) =>
          match v4 with
          | [] => some ⟨major, minor, ['0'], [], []⟩
          | '.' :: v5 =>
            match parseIntGo v5 with
            | none => none
            | some (patch, v6) =>
              match v6 with
              | '-' :: _ =>
                match parsePrerelease v6 with
                | none => none
                | some (pre, v7) => parseAfterPre major minor patch pre v7
              | _ => parseAfterPre major minor patch [] v6
          | _ => none
      | _ => none
  | _ => none

/-- x/mod/semver `IsValid`. -/
def isValid (v : List Char) : Bool := (parse v).isSome

/-- Go byte-wise string comparison `x < y`. -/
def lexLt : List Char → List Char → Bool
  | [], [] => false
  | [], _ :: _ => true
  | _ :: _, [] => false
  | a :: as1, b :: bs => if a = b then lexLt as1 bs else decide (a < b)

/-- x/mod/semver `compareInt` on digit strings without leading zeros:
equality, then length, then lexicographic order. -/
def compareIntGo (x y : List Char) : Int :=
  if x = y then 0
  else if x.length < y.length then -1
  else if x.length > y.length then 1
  else if lexLt x y then -1
  else 1

/-- Loop of x/mod/semver `comparePrerelease`: skip the leading `-` or `.`,
take the next dot-separated identifiers, and compare them — numeric before
alphanumeric, numeric ones by length then lexicographically, others
lexicographically; on full agreement the shorter sequence is smaller. -/
def comparePreLoop : List Char → List Char → Int
  | [], _ => -1
  | _ :: _, [] => 1
  | _ :: as1, _ :: bs =>
    let dx := as1.takeWhile (· ≠ '.')
    let x2 := as1.dropWhile (· ≠ '.')
    let dy := bs.takeWhile (· ≠ '.')
    let y2 := bs.dropWhile (· ≠ '.')
    if dx = dy then comparePreLoop x2 y2
    else if isNum dx ≠ isNum dy then (if isNum dx then -1 else 1)
    else if isNum dx then
      (if dx.length < dy.length then -1
       else if dx.length > dy.length then 1
       else if lexLt dx dy then -1 else 1)
    else (if lexLt dx dy then -1 else 1)
termination_by x y => x.length
decreasing_by
  simp only [List.length_cons]
  exact Nat.lt_succ_of_le (lengthDropWhileLe _ _)

/-- x/mod/semver `comparePrerelease`: equal strings tie; an absent
prerelease outranks any present one; otherwise run the identifier loop. -/
def comparePrerelease (x y : List Char) : Int :=
  if x = y then 0
  else if x = [] then 1
  else if y = [] then -1
  else comparePreLoop x y

/-- x/mod/semver `Compare`: invalid before valid; then major, minor, patch,
prerelease. -/
def semverCompare (v w : List Char) : Int :=
  match parse v, parse w with
  | none, none => 0
  | none, some _ => -1
  | some _, none => 1
  | some pv, some pw =>
    if compareIntGo pv.major pw.major ≠ 0 then compareIntGo pv.major pw.major
    else if compareIntGo pv.minor pw.minor ≠ 0 then compareIntGo pv.minor pw.minor
    else if compareIntGo pv.patch pw.patch ≠ 0 then compareIntGo pv.patch pw.patch
    else comparePrerelease pv.prerelease pw.prerelease

end Semver

/-- Go: `normVersion` (`src/version/updater.go` lines 210-224, identical at
lines 377-391): reject the empty string, prepend `v` when missing, then
require `semver.IsValid`. -/
def normVersion (ver : List Char) : Except String (List Char) :=
  if ver = [] then .error "version cannot be empty"
  else
    let ver2 := match ver with | 'v' :: _ => ver | _ => 'v' :: ver
    if Semver.isValid ver2 then .ok ver2
    else .error ("invalid semantic version: " ++ String.mk ver2)

/-- Go: `compareVersion` of `src/version/updater.go` lines 197-208 — reports
whether `v1` is newer than `v2`: `semver.Compare(ver1, ver2) > 0`. -/
def compareVersion (v1 v2 : List Char) : Except String Bool :=
  match normVersion v1 with
  | .error e => .error e
  | .ok ver1 =>
    match normVersion v2 with
    | .error e => .error e
    | .ok ver2 => .ok (Semver.semverCompare ver1 ver2 > 0)

/-- Go: `compareVersion` of the sibling variant at `src/version/updater.go`
lines 364-375, whose final line is `semver.Compare(ver1, ver2) <= 0`. -/
def compareVersionVariant (v1 v2 : List Char) : Except String Bool :=
  match normVersion v1 with
  | .error e => .error e
  | .ok ver1 =>
    match normVersion v2 with
    | .error e => .error e
    | .ok ver2 => .ok (Semver.semverCompare ver1 ver2 ≤ 0)

/-- Go: `type Asset struct { ID int64; Name string; Size int; DownloadURL string }`. -/
structure Asset where
  ID : Int
  Name : String
  Size : Int
  DownloadURL : String
deriving DecidableEq, Repr

/-- Go conversion `uint64(n)` of an `int` value: reduction modulo 2^64. -/
def toUint64 (n : Int) : Nat := (n % (2 ^ 64)).toNat

/-- Counter state of `DownloadProgress` from `src/unnamed/part_000`:
`finished` (atomic byte counter) and `total` (announced size). -/
structure DownloadProgress where
  finished : Nat
  total : Nat
deriving DecidableEq, Repr

/-- Go: `DownloadProgress.Write` (`src/unnamed/part_000` lines 28-36).
Adds the chunk length to `finished`, then unconditionally computes
`float32(dp.finished) / float32(dp.total)` and sends it on the channel.
Returns the updated counter and the sent ratio as (numerator, denominator);
there is no branch on `total`, so the denominator is always `total`. -/
def DownloadProgress.Write (dp : DownloadProgress) (n : Nat) :
    DownloadProgress × (Nat × Nat) :=
  let fin := dp.finished + n
  ({ dp with finished := fin }, (fin, dp.total))

/-- Go: `DownloadProgress.Progress` of `src/version/download.go` lines 32-34:
`float32(dp.finished) / float32(dp.total)`, again recorded as the pair
(numerator, denominator) of the unconditional division. -/
def DownloadProgress.ProgressRatio (dp : DownloadProgress) : Nat × Nat :=
  (dp.finished, dp.total)

/-- Observable events of one download task. -/
inductive DlEv where
  | report (num den : Nat)
  | closeChan
  | onFinishedCall
deriving DecidableEq, Repr

/-- Final value of the handle's `Err` field. -/
inductive DlErr where
  | netErr | mkdirErr | openErr | downloadErr | uncompressErr
deriving DecidableEq, Repr

/-- Outcomes of the external calls made by one run of the background task. -/
structure DlWorld where
  httpErr : Bool
  tempDirErr : Bool
  openErr : Bool
  chunks : List Nat
  copyErr : Bool
  uncompressErr : Bool
deriving Repr

/-- Channel sends produced while `io.Copy` streams the body: one
`DownloadProgress.Write` per chunk. -/
def progressReports (dp : DownloadProgress) : List Nat → List DlEv
  | [] => []
  | n :: rest =>
    let s := DownloadProgress.Write dp n
    .report s.2.1 s.2.2 :: progressReports s.1 rest

/-- Body of the goroutine of `Downloader.Download` from `src/unnamed/part_000`
lines 90-123 (everything inside `go func() { defer progress.Done(); ... }`
except the deferred close).  `hasCallback` models `onFinished != nil`. -/
def downloadBody (asset : Asset) (w : DlWorld) (hasCallback : Bool) :
    List DlEv × Option DlErr :=
  let total := toUint64 asset.Size
  if w.httpErr then ([], some .netErr)
  else if w.openErr then ([], some .openErr)
  else
    let reports := progressReports ⟨0, total⟩ w.chunks
    let n : Nat := w.chunks.sum
    if w.copyErr ∨ (n : Int) ≠ asset.Size then (reports, some .downloadErr)
    else if w.uncompressErr then (reports, some .uncompressErr)
    else (reports ++ (if hasCallback then [.onFinishedCall] else []), none)

/-- Go: `Downloader.Download` from `src/unnamed/part_000` lines 87-126: the
goroutine body followed by the deferred `progress.Done()`, which closes the
progress channel on every exit path. -/
def Download (asset : Asset) (w : DlWorld) (hasCallback : Bool) :
    List DlEv × Option DlErr :=
  let body := downloadBody asset w hasCallback
  (body.1 ++ [.closeChan], body.2)

/-- Go: `Downloader.Download` from `src/version/download.go` lines 70-119
(the channel-free sibling variant).  It creates its own temp directory, and
invokes `onFinished` both in the `err != nil || n != size` branch and, on
success, before extraction. -/
def DownloadFileVariant (asset : Asset) (w : DlWorld) (hasCallback : Bool) :
    List DlEv × Option DlErr :=
  if w.httpErr then ([], some .netErr)
  else if w.tempDirErr then ([], some .mkdirErr)
  else if w.openErr then ([], some .openErr)
  else
    let n : Nat := w.chunks.sum
    let calls : List DlEv := if hasCallback then [.onFinishedCall] else []
    if w.copyErr ∨ (n : Int) ≠ asset.Size then (calls, some .downloadErr)
    else if w.uncompressErr then (calls, some .uncompressErr)
    else (calls, none)

/-! ### Release asset selection (`Updater.getRelease`)

Source: `src/version/updater.go` lines 117-131.  The asset-name pattern is
the Go regular expression `^tpix-cli-GOOS-GOARCH-?\w*?\.(tar\.gz|zip)$`.
Because `[^.]`-free word characters cannot contain `.` and the expression
is fully anchored, a name matches exactly when it decomposes as
`"tpix-cli-" ++ GOOS ++ "-" ++ GOARCH ++ mid ++ ext` with
`ext ∈ { ".tar.gz", ".zip" }` and `mid` an optional `-` followed by word
characters (`[0-9A-Za-z_]`); the embedding checks that decomposition
directly.  Character classes, laziness and backtracking play no role in
whether a match exists for this pattern. -/

/-- Go regexp `\w` (ASCII): `[0-9A-Za-z_]`. -/
def isWordChar (c : Char) : Bool := c.isAlphanum || c = '_'

/-- The free middle part admitted by `-?\w*?`: an optional leading `-`
followed by word characters. -/
def midOk (cs : List Char) : Bool :=
  match cs with
  | '-' :: rest => rest.all isWordChar
  | _ => cs.all isWordChar

/-- Remove an expected leading literal, or fail. -/
def stripPre : List Char → List Char → Option (List Char)
  | [], l => some l
  | _ :: _, [] => none
  | p :: ps, c :: cs => if p = c then stripPre ps cs else none

/-- Remove an expected trailing literal, or fail. -/
def stripSuf (suf l : List Char) : Option (List Char) :=
  (stripPre suf.reverse l.reverse).map List.reverse

/-- Whether an asset name matches the platform pattern of
`Updater.getRelease` (`src/version/updater.go` line 118). -/
def matchesAssetName (goos goarch name : List Char) : Bool :=
  let base := "tpix-cli-".toList ++ goos ++ '-' :: goarch
  match stripPre base name with
  | none => false
  | some rest =>
    [".tar.gz".toList, ".zip".toList].any fun ext =>
      match stripSuf ext rest with
      | none => false
      | some mid => midOk mid

/-- Go zero value `Asset{}`, against which the selection loop's result is
compared. -/
def zeroAsset : Asset := ⟨0, "", 0, ""⟩

/-- Asset selection of `Updater.getRelease` (`src/version/updater.go` lines
121-131): a loop over the release assets that keeps the first name matching
the platform pattern and breaks; afterwards the zero value means "nothing
matched" and produces the "No matched release" error. -/
def selectAsset (goos goarch : String) (assets : List Asset) : Except String Asset :=
  let target :=
    (assets.find? fun a => matchesAssetName goos.toList goarch.toList a.Name.toList).getD
      zeroAsset
  if target = zeroAsset then
    .error ("No matched release for " ++ goos ++ "-" ++ goarch)
  else .ok target

theorem matchesEmptyName (goos goarch : List Char) :
    matchesAssetName goos goarch [] = false := rfl

theorem reportsOnlyReports (dp : DownloadProgress) (chunks : List Nat) (ev : DlEv)
    (h : ev ∈ progressReports dp chunks) : ∃ a b, ev = .report a b := by
  induction chunks generalizing dp with
  | nil => simp [progressReports] at h
  | cons n rest ih =>
    simp only [progressReports, List.mem_cons] at h
    cases h with
    | inl heq => exact ⟨_, _, heq⟩
    | inr hmem => exact ih _ hmem

theorem onFinishedNotInBody (asset : Asset) (w : DlWorld) (cb : Bool)
    (hhttp : w.httpErr = false) (hopen : w.openErr = false)
    (hmismatch : ((w.chunks.sum : Int) ≠ asset.Size)) :
    (downloadBody asset w cb).2 = some .downloadErr ∧
      DlEv.onFinishedCall ∉ (downloadBody asset w cb).1 := by
  simp only [downloadBody, hhttp, hopen, Bool.false_eq_true, if_false]
  split_ifs with hcond hu hcb
  · refine ⟨rfl, fun hmem => ?_⟩
    obtain ⟨a, b, hab⟩ := reportsOnlyReports _ _ _ hmem
    cases hab
  all_goals exact absurd (Or.inr hmismatch) hcond

theorem closeNotInBody (asset : Asset) (w : DlWorld) (cb : Bool) :
    DlEv.closeChan ∉ (downloadBody asset w cb).1 := by
  have hrep : ∀ (chunks : List Nat) (dp : DownloadProgress),
      DlEv.closeChan ∉ progressReports dp chunks := by
    intro chunks dp hmem
    obtain ⟨a, b, hab⟩ := reportsOnlyReports dp chunks _ hmem
    cases hab
  simp only [downloadBody]
  split_ifs with h1 h2 h3 h4 h5
  · simp
  · simp
  · exact hrep _ _
  · exact hrep _ _
  · intro hmem
    rcases List.mem_append.mp hmem with h | h
    · exact hrep _ _ h
    · simp at h
  · intro hmem
    rcases List.mem_append.mp hmem with h | h
    · exact hrep _ _ h
    · simp at h

end TpixVersion

/-- C2: in the channel-based `Downloader.Download` of `src/unnamed/part_000`,
any run whose HTTP copy writes a byte count different from the announced
asset size records a size-mismatch ("Download error") in the handle's error
field and never invokes the completion callback.  The sibling variant in
`src/version/download.go` violates this: at announced size 1000 with only
500 bytes received it sets the error but still calls `onFinished`. -/
theorem C2_sizeMismatch_noCallback :
    (∀ (asset : TpixVersion.Asset) (w : TpixVersion.DlWorld) (cb : Bool),
      w.httpErr = false → w.openErr = false →
      ((w.chunks.sum : Int) ≠ asset.Size) →
      (TpixVersion.Download asset w cb).2 = some .downloadErr ∧
        TpixVersion.DlEv.onFinishedCall ∉ (TpixVersion.Download asset w cb).1) ∧
    TpixVersion.DownloadFileVariant ⟨1, "tpix-cli-linux-amd64.tar.gz", 1000, "u"⟩
        ⟨false, false, false, [500], false, false⟩ true =
      ([.onFinishedCall], some .downloadErr) := by
  constructor
  · intro asset w cb hhttp hopen hmis
    obtain ⟨herr, hmem⟩ := TpixVersion.onFinishedNotInBody asset w cb hhttp hopen hmis
    refine ⟨herr, ?_⟩
    simp only [TpixVersion.Download, List.mem_append]
    rintro (h | h)
    · exact hmem h
    · simp at h
  · decide

/-- Closed witness for C2 at a download announcing 1000 bytes that receives
only 500. -/
theorem C2_sizeMismatch_witness :
    (TpixVersion.Download ⟨1, "tpix-cli-linux-amd64.tar.gz", 1000, "u"⟩
        ⟨false, false, false, [500], false, false⟩ true).2 =
      some .downloadErr ∧
    TpixVersion.DlEv.onFinishedCall ∉
      (TpixVersion.Download ⟨1, "tpix-cli-linux-amd64.tar.gz", 1000, "u"⟩
        ⟨false, false, false, [500], false, false⟩ true).1 :=
  C2_sizeMismatch_noCallback.1 ⟨1, "tpix-cli-linux-amd64.tar.gz", 1000, "u"⟩
    ⟨false, false, false, [500], false, false⟩ true rfl rfl (by decide)

/-- C3: every run of the channel-based `Downloader.Download` closes the
progress channel exactly once — the deferred `progress.Done()` runs on every
exit path of the goroutine (success, network error, open error, size
mismatch, extraction failure), and no path closes it a second time. -/
theorem C3_channel_closed_exactly_once
    (asset : TpixVersion.Asset) (w : TpixVersion.DlWorld) (cb : Bool) :
    (TpixVersion.Download asset w cb).1.count TpixVersion.DlEv.closeChan = 1 := by
  simp only [TpixVersion.Download, List.count_append]
  rw [List.count_eq_zero.mpr (TpixVersion.closeNotInBody asset w cb)]
  rfl

/-- C1: the `compareVersion` at `src/version/updater.go` lines 197-208
behaves exactly as the claim states on the spec's three examples — newer,
not newer, and a VersionError on the empty string.  The sibling variant at
lines 364-375 (`semver.Compare(ver1, ver2) <= 0`) contradicts the claim and
its own doc comment: it reports "1.2.0" as not newer than "1.1.9" and
"1.0.0" as newer than itself. -/
theorem C1_compareVersion_examples_and_bug :
    TpixVersion.compareVersion "1.2.0".toList "1.1.9".toList = .ok true ∧
    TpixVersion.compareVersion "1.0.0".toList "1.0.0".toList = .ok false ∧
    TpixVersion.compareVersion "".toList "1.0.0".toList =
      .error "version cannot be empty" ∧
    TpixVersion.compareVersionVariant "1.2.0".toList "1.1.9".toList = .ok false ∧
    TpixVersion.compareVersionVariant "1.0.0".toList "1.0.0".toList = .ok true :=
  ⟨rfl, rfl, rfl, rfl, rfl⟩

/-- C6 counterexample: two distinct release assets both match the
linux/amd64 filename pattern, yet the selection of `Updater.getRelease`
succeeds with the first one instead of failing — so "more than one matching
asset is a no-matching-platform-asset error" is false on the code. -/
theorem C6_counterexample_multiple_matches :
    TpixVersion.matchesAssetName "linux".toList "amd64".toList
        "tpix-cli-linux-amd64.tar.gz".toList = true ∧
    TpixVersion.matchesAssetName "linux".toList "amd64".toList
        "tpix-cli-linux-amd64.zip".toList = true ∧
    (⟨1, "tpix-cli-linux-amd64.tar.gz", 10, "u1"⟩ : TpixVersion.Asset) ≠
      ⟨2, "tpix-cli-linux-amd64.zip", 20, "u2"⟩ ∧
    TpixVersion.selectAsset "linux" "amd64"
        [⟨1, "tpix-cli-linux-amd64.tar.gz", 10, "u1"⟩,
         ⟨2, "tpix-cli-linux-amd64.zip", 20, "u2"⟩] =
      .ok ⟨1, "tpix-cli-linux-amd64.tar.gz", 10, "u1"⟩ :=
  ⟨by decide, by decide, by decide, rfl⟩

/-- C6 amended: `getRelease` requires at least one matching asset — zero
matches produce the "No matched release" error — and otherwise selects the
first asset whose name matches the platform pattern; multiple matches are
not an error. -/
theorem C6_selectAsset_first_match :
    (∀ (goos goarch : String) (assets : List TpixVersion.Asset),
      (∀ a ∈ assets,
        TpixVersion.matchesAssetName goos.toList goarch.toList a.Name.toList = false) →
      TpixVersion.selectAsset goos goarch assets =
        .error ("No matched release for " ++ goos ++ "-" ++ goarch)) ∧
    (∀ (goos goarch : String) (assets : List TpixVersion.Asset) (a : TpixVersion.Asset),
      assets.find?
          (fun x => TpixVersion.matchesAssetName goos.toList goarch.toList x.Name.toList) =
        some a →
      TpixVersion.selectAsset goos goarch assets = .ok a) := by
  constructor
  · intro goos goarch assets h
    have hnone : assets.find?
        (fun x => TpixVersion.matchesAssetName goos.data goarch.data x.Name.data) =
        none := by
      rw [List.find?_eq_none]
      intro x hx
      simpa using h x hx
    simp [TpixVersion.selectAsset, hnone]
  · intro goos goarch assets a hfind
    have hp := List.find?_some hfind
    have hne : a ≠ TpixVersion.zeroAsset := by
      intro he
      rw [he] at hp
      have hzl : (TpixVersion.zeroAsset.Name).toList = [] := rfl
      rw [hzl, TpixVersion.matchesEmptyName] at hp
      cases hp
    have hfind2 : assets.find?
        (fun x => TpixVersion.matchesAssetName goos.data goarch.data x.Name.data) =
        some a := by
      simpa using hfind
    simp [TpixVersion.selectAsset, hfind2, hne]

/-- Closed witness for C6 on an empty asset list and on a singleton match. -/
theorem C6_selectAsset_witness :
    TpixVersion.selectAsset "linux" "amd64" [] =
      .error ("No matched release for " ++ "linux" ++ "-" ++ "amd64") ∧
    TpixVersion.selectAsset "linux" "amd64"
        [⟨7, "tpix-cli-linux-amd64.zip", 42, "u"⟩] =
      .ok ⟨7, "tpix-cli-linux-amd64.zip", 42, "u"⟩ :=
  ⟨C6_selectAsset_first_match.1 "linux" "amd64" [] (by simp),
   C6_selectAsset_first_match.2 "linux" "amd64"
     [⟨7, "tpix-cli-linux-amd64.zip", 42, "u"⟩]
     ⟨7, "tpix-cli-linux-amd64.zip", 42, "u"⟩ (by decide)⟩

/-! ## Section: bundler package (`PackageCreator`)

Source: `src/bundler/bundler.go`.  The source tree handed to
`filepath.Walk` is modelled as a list of nodes (files and directories with
their children, listed in the lexical order Walk visits them); host paths
are modelled slash-separated, so the `filepath.ToSlash` calls are
identities.  `walkNode` reproduces the walk callback of `CreatePackage`
(lines 63-114): the root itself is skipped by starting from its children,
an excluded directory returns `filepath.SkipDir` (no entry, no descent), an
excluded file is skipped, and every other node contributes one archive
entry named by its `/`-joined path relative to the source directory.
`matchGlob` embeds `filepath.Match` for patterns without character classes
or escapes (`*` and `?` never match the separator); no pattern in this
development uses classes or escapes. -/

namespace TpixBundler

mutual

/-- A file-system subtree in the order `filepath.Walk` visits it. -/
inductive FNode where
  | file (name : String)
  | dir (name : String) (children : FForest)

/-- The ordered children of a directory (a plain list, kept as a mutual
inductive so that the walk below is structurally recursive). -/
inductive FForest where
  | nil
  | cons (n : FNode) (rest : FForest)

end

/-- Relative paths are stored `/`-joined, as `header.Name =
filepath.ToSlash(relPath)` does. -/
def pathJoin (comps : List String) : String := String.intercalate "/" comps

/-- Go `filepath.Match` for class-free, escape-free patterns: `*` matches
any run of non-separator characters, `?` one non-separator character.
The first argument is an explicit induction counter: every recursive call
shrinks `pattern.length + name.length` by exactly one, so with the initial
value `matchGlob` supplies the zero case is never reached — the counter
only makes the recursion structural. -/
def matchGlobF : Nat → List Char → List Char → Bool
  | 0, _, _ => false
  | _ + 1, [], [] => true
  | _ + 1, [], _ :: _ => false
  | f + 1, '*' :: ps, s =>
    matchGlobF f ps s ||
      (match s with
       | [] => false
       | c :: s2 => !(c = '/') && matchGlobF f ('*' :: ps) s2)
  | _ + 1, '?' :: _, [] => false
  | f + 1, '?' :: ps, c :: s => !(c = '/') && matchGlobF f ps s
  | _ + 1, _ :: _, [] => false
  | f + 1, p :: ps, c :: s => p = c && matchGlobF f ps s

/-- Go `filepath.Match` (classes and escapes unused by this program). -/
def matchGlob (p s : List Char) : Bool :=
  matchGlobF (p.length + s.length + 1) p s

/-- Go `strings.TrimSuffix` for a one-character suffix. -/
def trimSuffixChar (s : List Char) (c : Char) : List Char :=
  if s.getLast? = some c then s.dropLast else s

/-- Go: `PackageCreator.shouldExclude` (`src/bundler/bundler.go` lines
145-180): first match wins over exact equality, directory-pattern prefix
(pattern ending in `/`), trailing-`*` prefix, and a glob match. -/
def shouldExclude (path : List Char) (patterns : List (List Char)) : Bool :=
  patterns.any fun pat =>
    path = pat ||
    (pat.getLast? = some '/' && (trimSuffixChar pat '/' ++ ['/']).isPrefixOf path) ||
    (pat.getLast? = some '*' && (trimSuffixChar pat '*').isPrefixOf path) ||
    matchGlob pat path

mutual

/-- The walk callback of `CreatePackage` on one node: `pre` is the relative
component path of the enclosing directory.  An excluded directory returns
`filepath.SkipDir` — no entry and no descent; an excluded file contributes
nothing; every other node contributes its relative `/`-joined path. -/
def walkNode (pats : List (List Char)) (pre : List String) : FNode → List String
  | .file name =>
    if shouldExclude (pathJoin (pre ++ [name])).toList pats then []
    else [pathJoin (pre ++ [name])]
  | .dir name children =>
    if shouldExclude (pathJoin (pre ++ [name])).toList pats then []
    else pathJoin (pre ++ [name]) :: walkForest pats (pre ++ [name]) children

/-- The walk over an ordered list of siblings. -/
def walkForest (pats : List (List Char)) (pre : List String) : FForest → List String
  | .nil => []
  | .cons n rest => walkNode pats pre n ++ walkForest pats pre rest

end

/-- Go: the `filepath.Walk` of `CreatePackage`, with the root (`relPath ==
"."`) skipped: the archive entries, in walk order. -/
def createPackageEntries (pats : List (List Char)) (rootChildren : FForest) :
    List String :=
  walkForest pats [] rootChildren

/-- Go: `CreatePackage` merges caller-supplied patterns with the manifest's
`exclude` list (lines 45-48). -/
def mergedPatterns (cli manifestExclude : List (List Char)) : List (List Char) :=
  cli ++ manifestExclude

mutual

theorem walkNodeEntriesShape (pats : List (List Char)) (pre : List String)
    (n : FNode) :
    ∀ e ∈ walkNode pats pre n, ∃ comps, comps ≠ [] ∧ e = pathJoin (pre ++ comps) := by
  match n with
  | .file name =>
    intro e he
    simp only [walkNode] at he
    split at he
    · simp at he
    · simp only [List.mem_singleton] at he
      exact ⟨[name], by simp, he⟩
  | .dir name children =>
    intro e he
    simp only [walkNode] at he
    split at he
    · simp at he
    · rcases List.mem_cons.mp he with hh | ht
      · exact ⟨[name], by simp, hh⟩
      · obtain ⟨comps, hcne, hce⟩ :=
          walkForestEntriesShape pats (pre ++ [name]) children e ht
        exact ⟨name :: comps, by simp, by rw [hce, List.append_assoc]; rfl⟩

theorem walkForestEntriesShape (pats : List (List Char)) (pre : List String)
    (ns : FForest) :
    ∀ e ∈ walkForest pats pre ns,
      ∃ comps, comps ≠ [] ∧ e = pathJoin (pre ++ comps) := by
  match ns with
  | .nil =>
    intro e he
    simp [walkForest] at he
  | .cons n rest =>
    intro e he
    rcases List.mem_append.mp he with hl | hr
    · exact walkNodeEntriesShape pats pre n e hl
    · exact walkForestEntriesShape pats pre rest e hr

end

end TpixBundler

/-- C8: a directory whose relative path matches an exclusion pattern
produces no archive entry and its entire subtree is skipped; every archive
entry is the `/`-joined component path of its node relative to the source
directory; and bundling a tree containing a `.git/` subtree with exclusion
rule `.git` yields exactly the entries outside `.git`, none of which is
`.git` or begins with `.git/`. -/
theorem C8_createPackage_excludes_subtree :
    (∀ (pats : List (List Char)) (pre : List String) (name : String)
        (children : TpixBundler.FForest),
      TpixBundler.shouldExclude (TpixBundler.pathJoin (pre ++ [name])).toList pats =
          true →
      TpixBundler.walkNode pats pre (.dir name children) = []) ∧
    (∀ (pats : List (List Char)) (pre : List String) (n : TpixBundler.FNode),
      ∀ e ∈ TpixBundler.walkNode pats pre n,
        ∃ comps, comps ≠ [] ∧ e = TpixBundler.pathJoin (pre ++ comps)) ∧
    (TpixBundler.createPackageEntries [".git".toList]
        (.cons (.dir ".git" (.cons (.file "HEAD")
            (.cons (.dir "objects" (.cons (.file "ab") .nil)) .nil)))
          (.cons (.file "main.typ")
            (.cons (.dir "src" (.cons (.file "lib.typ") .nil)) .nil))) =
      ["main.typ", "src", "src/lib.typ"] ∧
     (["main.typ", "src", "src/lib.typ"] : List String).all
        (fun e => !(e = ".git") && !((".git/".toList).isPrefixOf e.toList)) = true) := by
  refine ⟨?_, TpixBundler.walkNodeEntriesShape, ?_, by decide⟩
  · intro pats pre name children hex
    simp only [TpixBundler.walkNode, hex, if_true]
  · rfl

/-- Closed witness for C8: with exclusion rule `.git`, the `.git` directory
node itself contributes no entries at all. -/
theorem C8_createPackage_witness :
    TpixBundler.walkNode [".git".toList] []
        (.dir ".git" (.cons (.file "HEAD")
          (.cons (.dir "objects" (.cons (.file "ab") .nil)) .nil))) = [] :=
  C8_createPackage_excludes_subtree.1 [".git".toList] [] ".git"
    (.cons (.file "HEAD") (.cons (.dir "objects" (.cons (.file "ab") .nil)) .nil))
    (by decide)

/-- C7: the progress-reporting path is NOT special-cased for a non-positive
announced size: `DownloadProgress.Write` always computes the ratio with the
announced total as divisor, and with announced size 0 a write of one byte
performs the (float32) division 1 / 0.  The `Progress()` accessor of
`src/version/download.go` divides unconditionally as well. -/
theorem C7_Write_divides_by_total :
    (∀ (dp : TpixVersion.DownloadProgress) (n : Nat),
      (dp.Write n).2 = (dp.finished + n, dp.total)) ∧
    (∀ dp : TpixVersion.DownloadProgress,
      dp.ProgressRatio = (dp.finished, dp.total)) ∧
    (TpixVersion.DownloadProgress.Write ⟨0, TpixVersion.toUint64 0⟩ 1).2 = (1, 0) :=
  ⟨fun _ _ => rfl, fun _ => rfl, rfl⟩
